import Mathlib

/-!
A verification development for the motion-analysis pipeline of
`src/vision.py`: the exponential motion-history filter `MHI` and the
max-horizontal-blob locator `MHB`.

Python floats are idealised as exact rationals.  The numpy and OpenCV
primitives the code calls (2-D broadcasting, `np.percentile`,
`cv2.findContours`, `cv2.contourArea`, `cv2.moments`, Python slicing and
`int(...)`) are modelled executably below, faithful to their documented
semantics on the inputs `vision.py` feeds them.
-/

set_option allowUnsafeReducibility true in
attribute [semireducible] Rat.add Rat.sub Rat.mul Rat.div Rat.neg Rat.inv Rat.blt Rat.floor Rat.ceil

/-- A 2-D numpy float array (FieldQ): a row-major list of rows of exact rationals. -/
abbrev FieldQ := List (List ℚ)

/-- A binary mask, the `np.uint8` 0/1 image built on line 115–116. -/
abbrev Mask := List (List ℕ)

/-- Array cell access `a[i][j]`; out-of-range reads default to `0` (they are
never reached under the shape hypotheses of the theorems below). -/
def get2 (f : FieldQ) (i j : Nat) : ℚ := (f.getD i []).getD j 0

/-- Mask cell access. -/
def getM (m : Mask) (i j : Nat) : ℕ := (m.getD i []).getD j 0

/-- The shape `(rows, cols)` of a rectangular list-of-lists; `none` for a
ragged value, which is not a 2-D numpy array.  The empty array, as produced
by an empty slice, has shape `(0, 0)`. -/
def shapeOfL (f : FieldQ) : Option (Nat × Nat) :=
  match f with
  | [] => some (0, 0)
  | r0 :: _ => if ∀ row ∈ f, row.length = r0.length then some (f.length, r0.length) else none

/-- The zero field `np.zeros((r, c))`, the initial MHI state (line 83). -/
def zerosF (r c : Nat) : FieldQ := List.replicate r (List.replicate c 0)

/-- The constant `r × c` field of value `x`. -/
def constF (r c : Nat) (x : ℚ) : FieldQ := List.replicate r (List.replicate c x)

/-- Python `int(...)` on a float: truncation toward zero (`Int.div` is
T-division). -/
def ratTrunc (q : ℚ) : ℤ := Int.tdiv q.num q.den

/-- Cast `astype` to a signed integer dtype: C truncation toward zero per cell. -/
def truncCast (q : ℚ) : ℚ := (ratTrunc q : ℚ)

/-- numpy broadcasting of one axis: extents are compatible when equal or when
one of them is 1, in which case that operand is repeated along the axis. -/
def bcastLen (a b : Nat) : Option Nat :=
  if a = b then some a else if a = 1 then some b else if b = 1 then some a else none

/-- The source index along an axis of extent `n` after broadcasting. -/
def bIdx (i n : Nat) : Nat := if n = 1 then 0 else i

namespace MHI

/-- Update rule of `MHI.update` (vision.py lines 87–90): `mhi := (alpha*frame +
(1-alpha)*mhi).astype(dtype)`, with numpy 2-D broadcasting of the two
operands; `cast` models `astype(self.dtype)` per cell.  `none` models the
`ValueError` numpy raises on broadcast-incompatible shapes. -/
def update (alpha : ℚ) (cast : ℚ → ℚ) (mhi frame : FieldQ) : Option FieldQ :=
  match shapeOfL mhi with
  | none => none
  | some (r1, c1) =>
    match shapeOfL frame with
    | none => none
    | some (r2, c2) =>
      match bcastLen r1 r2 with
      | none => none
      | some r =>
        match bcastLen c1 c2 with
        | none => none
        | some c =>
            some ((List.range r).map fun i => (List.range c).map fun j =>
              cast (alpha * get2 frame (bIdx i r2) (bIdx j c2)
                    + (1 - alpha) * get2 mhi (bIdx i r1) (bIdx j c1)))

/-- One `update` call as a state transformer: on a raised `ValueError` the
assignment on line 89 never happens and the state is kept. -/
def step (alpha : ℚ) (cast : ℚ → ℚ) (frame mhi : FieldQ) : FieldQ :=
  (update alpha cast mhi frame).getD mhi

/-- The state after `t` repeated `update` calls with the same frame. -/
def iter (alpha : ℚ) (cast : ℚ → ℚ) (frame mhi : FieldQ) (t : Nat) : FieldQ :=
  (step alpha cast frame)^[t] mhi

/-- The state after a sequence of `update` calls. -/
def run (alpha : ℚ) (cast : ℚ → ℚ) (mhi : FieldQ) (frames : List FieldQ) : FieldQ :=
  frames.foldl (fun s f => step alpha cast f s) mhi

end MHI

/-- Insertion into a sorted list, for `np.percentile`'s internal sort. -/
def insertQ (x : ℚ) : List ℚ → List ℚ
  | [] => [x]
  | y :: ys => if x ≤ y then x :: y :: ys else y :: insertQ x ys

/-- Ascending sort of the flattened data. -/
def sortQ (l : List ℚ) : List ℚ := l.foldr insertQ []

/-- Model of `np.percentile(a, p)` over the flattened data with the default linear
interpolation: position `p/100 * (n-1)` into the ascending sort,
interpolating between the two bracketing order statistics. -/
def percentileQ (p : ℚ) (xs : List ℚ) : ℚ :=
  let s := sortQ xs
  let n := s.length
  if n = 0 then 0
  else
    let pos : ℚ := p * ((n : ℚ) - 1) / 100
    let j : ℤ := ⌊pos⌋
    let g : ℚ := pos - (j : ℚ)
    let vj := s.getD j.toNat 0
    let vj1 := s.getD (j.toNat + 1) vj
    vj + g * (vj1 - vj)

/-- Lines 115–116: the binary mask `(1 * (mhi > np.percentile(mhi,
percentile))).astype(np.uint8)`, the percentile threshold being recomputed
from the current smoothed field on every call. -/
def maskOf (p : ℚ) (f : FieldQ) : Mask :=
  f.map (List.map fun v => if percentileQ p f.flatten < v then 1 else 0)

/-- Python slice `l[k : -k]`.  For `k = 0` the stop index `-0` is `0`, so the
slice is empty; for `k ≥ 1` it keeps elements `k .. n-k-1`, clamped. -/
def pyCrop {α : Type} (k : Nat) (l : List α) : List α :=
  if k = 0 then [] else (l.drop k).take (l.length - 2 * k)

/-- Line 113: `hmag[clip:-clip, clip:-clip]`. -/
def crop2 (k : Nat) (f : FieldQ) : FieldQ := (pyCrop k f).map (pyCrop k)

/-- A pixel position `(x, y)` = (column, row), OpenCV's contour point format. -/
abbrev Pt := ℤ × ℤ

/-- Pointwise sum of a point and a direction. -/
def addP (p d : Pt) : Pt := (p.1 + d.1, p.2 + d.2)

/-- Pointwise difference of two points. -/
def subP (p q : Pt) : Pt := (p.1 - q.1, p.2 - q.2)

/-- Mask lookup at a (possibly out-of-range) point; background outside. -/
def maskAt (m : Mask) (p : Pt) : ℕ :=
  if 0 ≤ p.1 ∧ 0 ≤ p.2 then (m.getD p.2.toNat []).getD p.1.toNat 0 else 0

/-- Foreground pixels of one mask row, in scan order. -/
def fgRow (y x : Nat) : List ℕ → List Pt
  | [] => []
  | v :: vs => (if v ≠ 0 then [((x : ℤ), (y : ℤ))] else []) ++ fgRow y (x + 1) vs

/-- Foreground pixels of the rows from row `y` on, in raster order. -/
def fgAux (y : Nat) : Mask → List Pt
  | [] => []
  | row :: rest => fgRow y 0 row ++ fgAux (y + 1) rest

/-- All foreground (nonzero) pixels of a mask in raster order. -/
def fgPixels (m : Mask) : List Pt := fgAux 0 m

/-- The 8 neighbours of a pixel. -/
def nbrs8 (p : Pt) : List Pt :=
  [(p.1 + 1, p.2), (p.1 + 1, p.2 + 1), (p.1, p.2 + 1), (p.1 - 1, p.2 + 1),
   (p.1 - 1, p.2), (p.1 - 1, p.2 - 1), (p.1, p.2 - 1), (p.1 + 1, p.2 - 1)]

/-- One step of 8-connected region growing inside the foreground set. -/
def growComp (fg s : List Pt) : List Pt :=
  fg.filter fun q => decide (q ∈ s) || (nbrs8 q).any fun n => decide (n ∈ s)

/-- The 8-connected component of `seed` within the foreground pixels, as the
fixed point of region growing (reached within `|fg|` iterations). -/
def componentOf (fg : List Pt) (seed : Pt) : List Pt :=
  (growComp fg)^[fg.length + 1] [seed]

/-- The 8 directions in the counter-clockwise scan order of the border
following of `cv2.findContours` (image coordinates, y growing downwards). -/
def dirsCCW : List Pt :=
  [(1, 0), (1, -1), (0, -1), (-1, -1), (-1, 0), (-1, 1), (0, 1), (1, 1)]

/-- The index of a direction in `dirsCCW`. -/
def dirIdx (d : Pt) : Nat := dirsCCW.indexOf d

/-- Scan the 8 neighbours of `c` counter-clockwise starting after direction
index `idx`; the first foreground neighbour and its direction index. -/
def scanNext (m : Mask) (c : Pt) : Nat → Nat → Option (Pt × Nat)
  | _, 0 => none
  | idx, k + 1 =>
      let idx' := (idx + 1) % 8
      let n := addP c (dirsCCW.getD idx' (0, 0))
      if maskAt m n ≠ 0 then some (n, idx') else scanNext m c idx' k

/-- Moore border following from current pixel `c` with backtrack direction
index `b`, collecting boundary pixels until the walk re-enters the start
pixel `s` about to repeat its first move to `p1`. -/
def traceAux (m : Mask) (s p1 : Pt) : Nat → Pt → Nat → List Pt
  | 0, _, _ => []
  | fuel + 1, c, b =>
      match scanNext m c b 8 with
      | none => []
      | some (n, k) =>
          let bpt := addP c (dirsCCW.getD ((k + 7) % 8) (0, 0))
          let b' := dirIdx (subP bpt n)
          if n = s then
            match scanNext m n b' 8 with
            | some (n2, _) => if n2 = p1 then [] else n :: traceAux m s p1 fuel n b'
            | none => []
          else n :: traceAux m s p1 fuel n b'

/-- The boundary pixel sequence of the region of `s`, starting (as OpenCV
does) from the region's raster-first pixel with the background to its
west. -/
def traceBoundary (m : Mask) (s : Pt) : List Pt :=
  match scanNext m s 4 8 with
  | none => [s]
  | some (p1, k1) =>
      let bpt := addP s (dirsCCW.getD ((k1 + 7) % 8) (0, 0))
      let b1 := dirIdx (subP bpt p1)
      s :: p1 :: traceAux m s p1 (4 * (fgPixels m).length + 8) p1 b1

/-- The direction of one chain step. -/
def dirOf (p q : Pt) : Pt := subP q p

/-- Compression `CHAIN_APPROX_SIMPLE`: on the closed pixel chain, keep the points where
the direction changes (the endpoints of maximal straight runs). -/
def chainApprox (ps : List Pt) : List Pt :=
  if ps.length ≤ 2 then ps
  else
    let mm := ps.length
    (List.range mm).filterMap fun i =>
      let prev := ps.getD ((i + mm - 1) % mm) (0, 0)
      let cur := ps.getD i (0, 0)
      let nxt := ps.getD ((i + 1) % mm) (0, 0)
      if dirOf prev cur ≠ dirOf cur nxt then some cur else none

/-- Recursion over the remaining raster-ordered foreground pixels: one
contour per 8-connected region, seeded at the region's raster-first pixel. -/
def contoursAux (m : Mask) : Nat → List Pt → List (List Pt)
  | _, [] => []
  | 0, _ => []
  | fuel + 1, p :: rest =>
      let comp := componentOf (fgPixels m) p
      chainApprox (traceBoundary m p)
        :: contoursAux m fuel (rest.filter fun q => decide (q ∉ comp))

/-- Model of `cv2.findContours(filtered, RETR_LIST, CHAIN_APPROX_SIMPLE)`
(lines 118–119): the compressed outer boundary of every 8-connected
foreground region.  (The masks arising in the developments below contain no
holes, so hole borders are not modelled.) -/
def findContoursM (m : Mask) : List (List Pt) :=
  contoursAux m (fgPixels m).length (fgPixels m)

/-- Consecutive cyclic vertex pairs of a polygon. -/
def cyclePairs (c : List Pt) : List (Pt × Pt) :=
  match c with
  | [] => []
  | p :: _ => c.zip (c.drop 1 ++ [p])

/-- Twice the signed polygon area of a contour (shoelace sum). -/
def crossSum (c : List Pt) : ℤ :=
  ((cyclePairs c).map fun pq => pq.1.1 * pq.2.2 - pq.2.1 * pq.1.2).sum

/-- Model of `cv2.contourArea` (line 124): the absolute polygon area of the contour. -/
def contourAreaQ (c : List Pt) : ℚ := ((crossSum c).natAbs : ℚ) / 2

/-- The zeroth and first contour moments. -/
structure MomentsQ where
  m00 : ℚ
  m10 : ℚ
  m01 : ℚ

/-- Model of `cv2.moments` on a contour (line 129): Green-theorem polygon moments,
sign-corrected so that `m00 ≥ 0` as in OpenCV's `contourMoments`; a
degenerate polygon (zero shoelace sum) keeps the all-zero moments OpenCV
initialises. -/
def momentsQ (c : List Pt) : MomentsQ :=
  let a00 := crossSum c
  if a00 = 0 then ⟨0, 0, 0⟩
  else
    let sgn : ℚ := if 0 < a00 then 1 else -1
    let a10 := ((cyclePairs c).map fun pq =>
      (pq.1.1 * pq.2.2 - pq.2.1 * pq.1.2) * (pq.1.1 + pq.2.1)).sum
    let a01 := ((cyclePairs c).map fun pq =>
      (pq.1.1 * pq.2.2 - pq.2.1 * pq.1.2) * (pq.1.2 + pq.2.2)).sum
    ⟨sgn * (a00 : ℚ) / 2, sgn * (a10 : ℚ) / 6, sgn * (a01 : ℚ) / 6⟩

/-- Lines 121–127: the scan for the contour of maximal `cv2.contourArea`,
starting from `contour = None`, `best_area = 0`, with a strict `>`. -/
def selectBest (cs : List (List Pt)) : Option (List Pt) :=
  (cs.foldl
    (fun acc c => if contourAreaQ c > acc.2 then (some c, contourAreaQ c) else acc)
    ((none : Option (List Pt)), (0 : ℚ))).1

/-- Lines 129–130: the centroid `(int(m01/m00), int(m10/m00))` of a contour;
`none` when `m00 = 0`, where the Python code raises instead of returning a
number. -/
def centroidOfContour (c : List Pt) : Option (ℤ × ℤ) :=
  let m := momentsQ c
  if m.m00 = 0 then none
  else some (ratTrunc (m.m01 / m.m00), ratTrunc (m.m10 / m.m00))

/-- The exceptions the body of `MHB.compute` can raise: the numpy
`ValueError` on a broadcast-incompatible `update`, the error raised by
`cv2.moments(None)` when no contour was selected, and the
`ZeroDivisionError` of a zero zeroth moment. -/
inductive VErr where
  | valueError
  | momentsNone
  | zeroDivision

deriving instance DecidableEq for VErr

namespace MHB

/-- Body of `MHB.compute` (lines 111–132), taking the horizontal magnitude field
`hmag` of line 112 as input (that line is the real-valued `hmagPixel`
below; the rest of the body is exact rational arithmetic).  The internal
MHI was built with dtype `np.float` (line 107), so its cast is the
identity.  Returns the pair `(mhi[best_location], best_location)` together
with the updated MHI state, or the exception the Python body raises. -/
def compute (alpha : ℚ) (clip : Nat) (p : ℚ) (mhi hmag : FieldQ) :
    Except VErr ((ℚ × (ℤ × ℤ)) × FieldQ) :=
  let cropped := crop2 clip hmag
  match MHI.update alpha id mhi cropped with
  | none => .error .valueError
  | some mhi' =>
    let mask := maskOf p mhi'
    match selectBest (findContoursM mask) with
    | none => .error .momentsNone
    | some c =>
      match centroidOfContour c with
      | none => .error .zeroDivision
      | some loc => .ok ((get2 mhi' loc.1.toNat loc.2.toNat, loc), mhi')

end MHB

/-- Whether an `Except` result of `compute` is a successful return. -/
def exceptOk : Except VErr ((ℚ × (ℤ × ℤ)) × FieldQ) → Bool
  | .ok _ => true
  | .error _ => false

/-- Whether every cell of a field is `0`. -/
def isZeroF (f : FieldQ) : Bool := f.all fun row => row.all fun v => v == 0

/-- Line 112: `hmag = mag * np.cos(ang) ** 2` per pixel, over the reals. -/
noncomputable def hmagPixel (mag ang : ℝ) : ℝ := mag * Real.cos ang ^ 2

/-- The full horizontal-magnitude field of line 112. -/
noncomputable def hmagField (mag ang : Nat → Nat → ℝ) (i j : Nat) : ℝ :=
  hmagPixel (mag i j) (ang i j)

/-- The contour `cv2.findContours` produces for a filled axis-aligned
rectangle of pixels `[x0, x1] × [y0, y1]`: its four corners, starting at
the raster-first corner and walking down the left edge first. -/
def rectContour (x0 y0 x1 y1 : ℤ) : List Pt :=
  [(x0, y0), (x0, y1), (x1, y1), (x1, y0)]

/-! ## Shape and access lemmas -/

theorem bcastLen_self (a : Nat) : bcastLen a a = some a := by
  simp [bcastLen]

theorem bcastLen_one_right (a : Nat) : bcastLen a 1 = some a := by
  unfold bcastLen
  rcases eq_or_ne a 1 with h | h <;> simp [h]

theorem bIdx_of_lt {i n : Nat} (h : i < n) : bIdx i n = i := by
  unfold bIdx
  split
  · omega
  · rfl

theorem getD_replicate_elem {α : Type} (a d : α) :
    ∀ (n i : Nat), (List.replicate n a).getD i d = if i < n then a else d := by
  intro n
  induction n with
  | zero => intro i; simp
  | succ n ih =>
      intro i
      cases i with
      | zero => simp [List.replicate_succ]
      | succ i => simpa [List.replicate_succ] using ih i

theorem shapeOfL_inv {f : FieldQ} {r c : Nat} (h : shapeOfL f = some (r, c)) :
    f.length = r ∧ ∀ row ∈ f, row.length = c := by
  cases f with
  | nil =>
      simp only [shapeOfL, Option.some.injEq, Prod.mk.injEq, List.length_nil] at h ⊢
      exact ⟨h.1, by simp⟩
  | cons r0 rest =>
      simp only [shapeOfL] at h
      split at h
      · rename_i hall
        rw [Option.some.injEq, Prod.mk.injEq] at h
        exact ⟨h.1, fun row hm => h.2 ▸ hall row hm⟩
      · exact absurd h (by simp)

theorem shapeOfL_length {f : FieldQ} {r c : Nat} (h : shapeOfL f = some (r, c)) :
    f.length = r := (shapeOfL_inv h).1

theorem shapeOfL_row {f : FieldQ} {r c : Nat} (h : shapeOfL f = some (r, c))
    {row : List ℚ} (hm : row ∈ f) : row.length = c := (shapeOfL_inv h).2 row hm

theorem shapeOfL_eq_some {f : FieldQ} {r c : Nat} (hr : 1 ≤ r) (hlen : f.length = r)
    (hrows : ∀ row ∈ f, row.length = c) : shapeOfL f = some (r, c) := by
  cases f with
  | nil => simp at hlen; omega
  | cons r0 rest =>
      have h0 : r0.length = c := hrows r0 (by simp)
      simp only [shapeOfL]
      rw [if_pos fun row hm => by rw [hrows row hm, h0]]
      rw [h0, hlen]

theorem get2_eq_getElem {f : FieldQ} {i j : Nat} (hi : i < f.length)
    (hj : j < f[i].length) : get2 f i j = f[i][j] := by
  unfold get2
  rw [List.getD_eq_getElem f [] hi, List.getD_eq_getElem _ 0 hj]

theorem get2_range_map {R C : Nat} {g : Nat → Nat → ℚ} {i j : Nat}
    (hi : i < R) (hj : j < C) :
    get2 ((List.range R).map fun a => (List.range C).map fun b => g a b) i j = g i j := by
  have h1 : i < ((List.range R).map fun a => (List.range C).map fun b => g a b).length := by
    simpa using hi
  rw [get2_eq_getElem h1 (by simpa using hj)]
  simp

theorem shapeOfL_range_map {R C : Nat} (g : Nat → Nat → ℚ) (hR : 1 ≤ R) :
    shapeOfL ((List.range R).map fun a => (List.range C).map fun b => g a b)
      = some (R, C) := by
  apply shapeOfL_eq_some hR (by simp)
  intro row hm
  obtain ⟨a, _, rfl⟩ := List.mem_map.mp hm
  simp

theorem shapeOfL_replicate {r c : Nat} (x : ℚ) (hr : 1 ≤ r) :
    shapeOfL (List.replicate r (List.replicate c x)) = some (r, c) := by
  apply shapeOfL_eq_some hr (by simp)
  intro row hm
  rw [List.eq_of_mem_replicate hm]
  simp

theorem get2_constF {r c i j : Nat} (x : ℚ) (hi : i < r) (hj : j < c) :
    get2 (constF r c x) i j = x := by
  unfold constF get2
  rw [getD_replicate_elem _ _ _ _, if_pos hi, getD_replicate_elem _ _ _ _, if_pos hj]

theorem get2_zerosF (r c i j : Nat) : get2 (zerosF r c) i j = 0 := by
  unfold zerosF get2
  rw [getD_replicate_elem _ _ _ _]
  split
  · rw [getD_replicate_elem _ _ _ _]
    split <;> rfl
  · simp

theorem range_map_get2 {f : FieldQ} {r c : Nat} (h : shapeOfL f = some (r, c))
    (g : ℚ → ℚ) :
    ((List.range r).map fun i => (List.range c).map fun j => g (get2 f i j))
      = f.map (List.map g) := by
  apply List.ext_getElem
  · simp [shapeOfL_length h]
  · intro i h1 h2
    have hif : i < f.length := by simpa using h2
    simp only [List.getElem_map, List.getElem_range]
    apply List.ext_getElem
    · simp [shapeOfL_row h (List.getElem_mem hif)]
    · intro j hj1 hj2
      simp only [List.getElem_map, List.getElem_range]
      rw [get2_eq_getElem hif (by simpa using hj2)]

/-! ## `MHI.update` unfolded under known shapes -/

theorem MHI.update_of_shapes {alpha : ℚ} {cast : ℚ → ℚ} {mhi frame : FieldQ}
    {r1 c1 r2 c2 r c : Nat}
    (h1 : shapeOfL mhi = some (r1, c1)) (h2 : shapeOfL frame = some (r2, c2))
    (hr : bcastLen r1 r2 = some r) (hc : bcastLen c1 c2 = some c) :
    MHI.update alpha cast mhi frame =
      some ((List.range r).map fun i => (List.range c).map fun j =>
        cast (alpha * get2 frame (bIdx i r2) (bIdx j c2)
              + (1 - alpha) * get2 mhi (bIdx i r1) (bIdx j c1))) := by
  unfold MHI.update
  simp only [h1, h2, hr, hc]

theorem MHI.update_same_shape {alpha : ℚ} {cast : ℚ → ℚ} {mhi frame : FieldQ}
    {r c : Nat} (h1 : shapeOfL mhi = some (r, c)) (h2 : shapeOfL frame = some (r, c)) :
    MHI.update alpha cast mhi frame =
      some ((List.range r).map fun i => (List.range c).map fun j =>
        cast (alpha * get2 frame i j + (1 - alpha) * get2 mhi i j)) := by
  rw [MHI.update_of_shapes h1 h2 (bcastLen_self r) (bcastLen_self c)]
  congr 1
  apply List.map_congr_left
  intro i hi
  apply List.map_congr_left
  intro j hj
  rw [bIdx_of_lt (List.mem_range.mp hi), bIdx_of_lt (List.mem_range.mp hj)]

/-! ## C4: alpha = 1 stores the raw frame -/

/-- C4: for a motion-history filter constructed with `alpha = 1`, an
`MHI.update` call stores the `astype`-image of the raw input frame with no
contribution from the previous state, and with the float dtype the filter
is actually constructed with (identity cast) the stored state equals the
raw input frame exactly, for every input frame and every prior state of the
configured shape. -/
theorem mhi_update_alpha_one_eq_frame (cast : ℚ → ℚ) (mhi frame : FieldQ) (r c : Nat)
    (h1 : shapeOfL mhi = some (r, c)) (h2 : shapeOfL frame = some (r, c)) :
    MHI.update 1 cast mhi frame = some (frame.map (List.map cast)) ∧
    MHI.update 1 id mhi frame = some frame := by
  have key : ∀ cst : ℚ → ℚ, MHI.update 1 cst mhi frame = some (frame.map (List.map cst)) := by
    intro cst
    rw [MHI.update_same_shape h1 h2, ← range_map_get2 h2 cst]
    congr 1
    apply List.map_congr_left
    intro i _
    apply List.map_congr_left
    intro j _
    congr 1
    ring
  refine ⟨key cast, ?_⟩
  rw [key id]
  simp

/-- Witness for C4 at a concrete input: with `alpha = 1` the previous state
`[[3]]` leaves no trace; the float filter stores `[[1/2]]` verbatim, and an
integer cast would store its truncation. -/
theorem mhi_update_alpha_one_eq_frame_witness :
    MHI.update 1 truncCast [[(3 : ℚ)]] [[(1 : ℚ)/2]] = some [[(0 : ℚ)]] ∧
    MHI.update 1 id [[(3 : ℚ)]] [[(1 : ℚ)/2]] = some [[(1 : ℚ)/2]] := by
  have h := mhi_update_alpha_one_eq_frame truncCast [[(3 : ℚ)]] [[(1 : ℚ)/2]] 1 1
    (by decide) (by decide)
  exact ⟨by rw [h.1]; decide, h.2⟩

/-! ## C5: alpha = 0 never leaves the zero state -/

theorem get2_of_isZeroF {f : FieldQ} (h : isZeroF f = true) (i j : Nat) :
    get2 f i j = 0 := by
  unfold get2
  rcases lt_or_ge i f.length with hi | hi
  · have hall := (List.all_eq_true.mp h) _ (List.getElem_mem hi)
    rw [List.getD_eq_getElem f [] hi]
    rcases lt_or_ge j f[i].length with hj | hj
    · have hv := (List.all_eq_true.mp hall) _ (List.getElem_mem hj)
      rw [List.getD_eq_getElem _ 0 hj]
      simpa using hv
    · rw [List.getD_eq_default _ _ hj]
  · rw [List.getD_eq_default _ _ hi]
    simp

theorem isZeroF_range_map {R C : Nat} {g : Nat → Nat → ℚ} (h : ∀ i j, g i j = 0) :
    isZeroF ((List.range R).map fun a => (List.range C).map fun b => g a b) = true := by
  simp [isZeroF, List.all_eq_true, h]

theorem isZeroF_zerosF (r c : Nat) : isZeroF (zerosF r c) = true := by
  unfold isZeroF zerosF
  rw [List.all_eq_true]
  intro row hrow
  rw [List.eq_of_mem_replicate hrow, List.all_eq_true]
  intro v hv
  rw [List.eq_of_mem_replicate hv]
  rfl

theorem update_zero_alpha_isZero {cast : ℚ → ℚ} (hc : cast 0 = 0) {st f st' : FieldQ}
    (hz : isZeroF st = true) (hu : MHI.update 0 cast st f = some st') :
    isZeroF st' = true := by
  unfold MHI.update at hu
  rcases h1 : shapeOfL st with _ | ⟨r1, c1⟩
  · simp only [h1] at hu
    exact Option.noConfusion hu
  rcases h2 : shapeOfL f with _ | ⟨r2, c2⟩
  · simp only [h1, h2] at hu
    exact Option.noConfusion hu
  rcases hbr : bcastLen r1 r2 with _ | R
  · simp only [h1, h2, hbr] at hu
    exact Option.noConfusion hu
  rcases hbc : bcastLen c1 c2 with _ | C
  · simp only [h1, h2, hbr, hbc] at hu
    exact Option.noConfusion hu
  simp only [h1, h2, hbr, hbc, Option.some.injEq] at hu
  subst hu
  apply isZeroF_range_map
  intro i j
  rw [show (0 : ℚ) * get2 f (bIdx i r2) (bIdx j c2)
      + (1 - 0) * get2 st (bIdx i r1) (bIdx j c1)
      = get2 st (bIdx i r1) (bIdx j c1) by ring]
  rw [get2_of_isZeroF hz, hc]

theorem isZeroF_step_zero {cast : ℚ → ℚ} (hc : cast 0 = 0) {st : FieldQ}
    (h : isZeroF st = true) (f : FieldQ) : isZeroF (MHI.step 0 cast f st) = true := by
  unfold MHI.step
  rcases hu : MHI.update 0 cast st f with _ | st'
  · simpa using h
  · simpa using update_zero_alpha_isZero hc h hu

theorem isZeroF_run_zero {cast : ℚ → ℚ} (hc : cast 0 = 0) :
    ∀ (frames : List FieldQ) (st : FieldQ), isZeroF st = true →
      isZeroF (MHI.run 0 cast st frames) = true := by
  intro frames
  induction frames with
  | nil => intro st h; simpa [MHI.run] using h
  | cons f fs ih =>
      intro st h
      have h1 : MHI.run 0 cast st (f :: fs) = MHI.run 0 cast (MHI.step 0 cast f st) fs := rfl
      rw [h1]
      exact ih _ (isZeroF_step_zero hc h f)

theorem step_zeros_same_shape {cast : ℚ → ℚ} (hc : cast 0 = 0) {r c : Nat} {f : FieldQ}
    (hf : shapeOfL f = some (r, c)) : MHI.step 0 cast f (zerosF r c) = zerosF r c := by
  rcases Nat.eq_zero_or_pos r with hr | hr
  · subst hr
    have hnil : f = [] := List.eq_nil_of_length_eq_zero (shapeOfL_length hf)
    subst hnil
    have hc0 : c = 0 := by
      have := hf
      simp only [shapeOfL, Option.some.injEq, Prod.mk.injEq] at this
      omega
    subst hc0
    rfl
  · have hz : shapeOfL (zerosF r c) = some (r, c) := shapeOfL_replicate 0 hr
    unfold MHI.step
    rw [MHI.update_same_shape hz hf, Option.getD_some]
    have inner : ∀ i ∈ List.range r,
        ((List.range c).map fun j =>
          cast (0 * get2 f i j + (1 - 0) * get2 (zerosF r c) i j))
          = (fun _ => List.replicate c (0 : ℚ)) i := by
      intro i _
      have hcell : ∀ j ∈ List.range c,
          cast (0 * get2 f i j + (1 - 0) * get2 (zerosF r c) i j) = (fun _ => (0 : ℚ)) j := by
        intro j _
        rw [show (0 : ℚ) * get2 f i j + (1 - 0) * get2 (zerosF r c) i j
            = get2 (zerosF r c) i j by ring]
        rw [get2_zerosF, hc]
      rw [List.map_congr_left hcell, List.map_const', List.length_range]
    rw [List.map_congr_left inner, List.map_const', List.length_range]
    rfl

theorem run_zeros_zero_alpha {cast : ℚ → ℚ} (hc : cast 0 = 0) {r c : Nat} :
    ∀ frames : List FieldQ, (∀ f ∈ frames, shapeOfL f = some (r, c)) →
      MHI.run 0 cast (zerosF r c) frames = zerosF r c := by
  intro frames
  induction frames with
  | nil => intro _; rfl
  | cons f fs ih =>
      intro hall
      have h1 : MHI.run 0 cast (zerosF r c) (f :: fs)
          = MHI.run 0 cast (MHI.step 0 cast f (zerosF r c)) fs := rfl
      rw [h1, step_zeros_same_shape hc (hall f (by simp))]
      exact ih fun g hg => hall g (by simp [hg])

/-- C5: a filter constructed with `alpha = 0` (dtype cast fixing `0`) keeps an
all-zero state after every sequence of `update` calls regardless of the input
values, and keeps exactly the all-zero field it was initialised to when the
inputs have the configured shape. -/
theorem mhi_alpha_zero_state_constant (cast : ℚ → ℚ) (r c : Nat) (frames : List FieldQ)
    (hcast : cast 0 = 0) :
    isZeroF (MHI.run 0 cast (zerosF r c) frames) = true ∧
    ((∀ f ∈ frames, shapeOfL f = some (r, c)) →
      MHI.run 0 cast (zerosF r c) frames = zerosF r c) := by
  exact ⟨isZeroF_run_zero hcast frames _ (isZeroF_zerosF r c),
         run_zeros_zero_alpha hcast frames⟩

/-- Witness for C5 at a concrete input: two updates with nonzero frames leave
the `2 × 2` zero state unchanged when `alpha = 0`. -/
theorem mhi_alpha_zero_state_constant_witness :
    isZeroF (MHI.run 0 truncCast (zerosF 2 2) [[[5, 7], [1, 2]], [[9, 9], [9, 9]]]) = true ∧
    MHI.run 0 truncCast (zerosF 2 2) [[[5, 7], [1, 2]], [[9, 9], [9, 9]]] = zerosF 2 2 := by
  have h := mhi_alpha_zero_state_constant truncCast 2 2
    [[[5, 7], [1, 2]], [[9, 9], [9, 9]]] (by decide)
  exact ⟨h.1, h.2 (by decide)⟩

/-! ## C3: convergence toward a constant input -/

theorem shapeOfL_constF {r c : Nat} (x : ℚ) (hr : 1 ≤ r) :
    shapeOfL (constF r c x) = some (r, c) := by
  unfold constF
  exact shapeOfL_replicate x hr

theorem iter_shape {alpha x : ℚ} {st : FieldQ} {r c : Nat} (hr : 1 ≤ r)
    (hst : shapeOfL st = some (r, c)) (t : Nat) :
    shapeOfL (MHI.iter alpha id (constF r c x) st t) = some (r, c) := by
  induction t with
  | zero => simpa [MHI.iter] using hst
  | succ t ih =>
      unfold MHI.iter at ih ⊢
      rw [Function.iterate_succ_apply', MHI.step]
      rw [MHI.update_same_shape ih (shapeOfL_constF x hr), Option.getD_some]
      exact shapeOfL_range_map _ hr

theorem iter_cell_succ {alpha x : ℚ} {st : FieldQ} {r c i j : Nat} (t : Nat)
    (hi : i < r) (hj : j < c) (hst : shapeOfL st = some (r, c)) :
    get2 (MHI.iter alpha id (constF r c x) st (t + 1)) i j
      = alpha * x + (1 - alpha) * get2 (MHI.iter alpha id (constF r c x) st t) i j := by
  have hr : 1 ≤ r := by omega
  have hsh := @iter_shape alpha x st r c hr hst t
  unfold MHI.iter at hsh ⊢
  rw [Function.iterate_succ_apply', MHI.step]
  rw [MHI.update_same_shape hsh (shapeOfL_constF x hr), Option.getD_some]
  rw [get2_range_map hi hj, get2_constF x hi hj]
  simp

/-- Counterexample to C3 as stated: with an integer element type (the
truncating `astype` cast), `alpha = 1/2 ∈ (0, 1]`, constant input frame
`X = [[1]]` and the zero initial state, one update stores `int(1/2) = 0`
again, so the cell distance `|H_1 - X| = |H_0 - X| = 1` fails to decrease
strictly although `H_0 ≠ X` and `alpha > 0`. -/
theorem mhi_convergence_counterexample :
    MHI.iter (1/2) truncCast (constF 1 1 1) (zerosF 1 1) 1 = zerosF 1 1 ∧
    get2 (zerosF 1 1) 0 0 ≠ get2 (constF 1 1 1) 0 0 ∧ (0 : ℚ) < 1/2 ∧
    ¬ (|get2 (MHI.iter (1/2) truncCast (constF 1 1 1) (zerosF 1 1) 1) 0 0 - 1|
        < |get2 (MHI.iter (1/2) truncCast (constF 1 1 1) (zerosF 1 1) 0) 0 0 - 1|) := by
  exact ⟨by decide, by decide, by decide, by decide⟩

/-- C3 (amended): for the float element type the locator's filter actually
uses (identity cast), for every `alpha ∈ [0, 1]` and every constant input
frame of value `x`, each cell distance `|H_t − x|` is non-increasing at
every step, and strictly decreasing at every step where the cell still
differs from `x` and `alpha > 0`.  (The original claim's quantification
over every element type fails — see the integer-cast counterexample.) -/
theorem mhi_const_input_convergence (alpha x : ℚ) (st : FieldQ) (r c t i j : Nat)
    (h0 : 0 ≤ alpha) (h1 : alpha ≤ 1) (hst : shapeOfL st = some (r, c))
    (hi : i < r) (hj : j < c) :
    |get2 (MHI.iter alpha id (constF r c x) st (t + 1)) i j - x|
      ≤ |get2 (MHI.iter alpha id (constF r c x) st t) i j - x| ∧
    (0 < alpha → get2 (MHI.iter alpha id (constF r c x) st t) i j ≠ x →
      |get2 (MHI.iter alpha id (constF r c x) st (t + 1)) i j - x|
        < |get2 (MHI.iter alpha id (constF r c x) st t) i j - x|) := by
  have hrec := @iter_cell_succ alpha x st r c i j t hi hj hst
  have hstep : get2 (MHI.iter alpha id (constF r c x) st (t + 1)) i j - x
      = (1 - alpha) * (get2 (MHI.iter alpha id (constF r c x) st t) i j - x) := by
    rw [hrec]; ring
  constructor
  · rw [hstep, abs_mul, abs_of_nonneg (by linarith : (0 : ℚ) ≤ 1 - alpha)]
    exact mul_le_of_le_one_left (abs_nonneg _) (by linarith)
  · intro ha hne
    rw [hstep, abs_mul, abs_of_nonneg (by linarith : (0 : ℚ) ≤ 1 - alpha)]
    exact mul_lt_of_lt_one_left (abs_pos.mpr (sub_ne_zero.mpr hne)) (by linarith)

/-- Witness for the amended C3 at a concrete input: with the identity cast,
`alpha = 1/2`, `X = [[1]]`, `H_0 = [[0]]`, the first step halves the cell
distance. -/
theorem mhi_const_input_convergence_witness :
    |get2 (MHI.iter (1/2) id (constF 1 1 1) [[0]] (0 + 1)) 0 0 - 1|
      ≤ |get2 (MHI.iter (1/2) id (constF 1 1 1) [[0]] 0) 0 0 - 1| ∧
    |get2 (MHI.iter (1/2) id (constF 1 1 1) [[0]] (0 + 1)) 0 0 - 1|
      < |get2 (MHI.iter (1/2) id (constF 1 1 1) [[0]] 0) 0 0 - 1| := by
  have h := mhi_const_input_convergence (1/2) 1 [[0]] 1 1 0 0 0
    (by decide) (by decide) (by decide) (by decide) (by decide)
  exact ⟨h.1, h.2 (by decide) (by decide)⟩

/-! ## C2: no shape check in `MHI.update` -/

/-- Counterexample to C2 as stated: the `1 × 2` frame `[[4, 4]]` does not
match the filter's configured `2 × 2` shape, yet `update` (with `alpha =
1/2` and the float cast) succeeds and silently broadcasts the frame over
both state rows — no ShapeMismatch failure is reported. -/
theorem mhi_update_no_shape_check_counterexample :
    shapeOfL [[(4 : ℚ), 4]] = some (1, 2) ∧
    shapeOfL (zerosF 2 2) = some (2, 2) ∧
    (1, 2) ≠ (2, 2) ∧
    MHI.update (1/2) id (zerosF 2 2) [[(4 : ℚ), 4]] = some [[2, 2], [2, 2]] := by
  exact ⟨by decide, by decide, by decide, by decide⟩

/-- C2 (amended): `MHI.update` performs no shape check.  A mismatched frame
that numpy can broadcast (here one of shape `1 × c` against an `r × c`
state) is silently broadcast into the state, and a broadcast-incompatible
frame fails with numpy's untyped `ValueError`; no ShapeMismatch condition
exists. -/
theorem mhi_update_no_shape_check (alpha : ℚ) (cast : ℚ → ℚ)
    (mhi frame frame2 : FieldQ) (r c r2 c2 : Nat)
    (hst : shapeOfL mhi = some (r, c)) (hf : shapeOfL frame = some (1, c))
    (hf2 : shapeOfL frame2 = some (r2, c2))
    (hr2r : r2 ≠ r) (hr21 : r2 ≠ 1) (hr1 : r ≠ 1) :
    MHI.update alpha cast mhi frame
      = some ((List.range r).map fun i => (List.range c).map fun j =>
          cast (alpha * get2 frame 0 j + (1 - alpha) * get2 mhi i j)) ∧
    MHI.update alpha cast mhi frame2 = none := by
  constructor
  · have hbr : bcastLen r 1 = some r := bcastLen_one_right r
    rw [MHI.update_of_shapes hst hf hbr (bcastLen_self c)]
    congr 1
    apply List.map_congr_left
    intro i hi
    apply List.map_congr_left
    intro j hj
    rw [bIdx_of_lt (List.mem_range.mp hj)]
    rw [show bIdx i 1 = 0 from rfl, bIdx_of_lt (List.mem_range.mp hi)]
  · unfold MHI.update
    simp only [hst, hf2]
    have hbr : bcastLen r r2 = none := by
      unfold bcastLen
      rw [if_neg (by omega), if_neg hr1, if_neg hr21]
    simp only [hbr]

/-- Witness for the amended C2 at concrete inputs: the `1 × 2` frame is
broadcast over the `2 × 2` zero state without any error, while a `3 × 2`
frame raises. -/
theorem mhi_update_no_shape_check_witness :
    MHI.update (1/2) id (zerosF 2 2) [[(4 : ℚ), 4]] = some [[2, 2], [2, 2]] ∧
    MHI.update (1/2) id (zerosF 2 2) [[(1 : ℚ), 1], [2, 2], [3, 3]] = none := by
  have h := mhi_update_no_shape_check (1/2) id (zerosF 2 2) [[(4 : ℚ), 4]]
    [[(1 : ℚ), 1], [2, 2], [3, 3]] 2 2 3 2
    (by decide) (by decide) (by decide) (by decide) (by decide) (by decide)
  exact ⟨by rw [h.1]; decide, h.2⟩

/-! ## C1, C10: failure paths of `MHB.compute` -/

theorem fgRow_eq_nil {row : List ℕ} (h : ∀ v ∈ row, v = 0) (y : Nat) :
    ∀ x, fgRow y x row = [] := by
  induction row with
  | nil => intro x; rfl
  | cons v vs ih =>
      intro x
      simp only [fgRow]
      rw [if_neg (by simp [h v (by simp)]), List.nil_append]
      exact ih (fun w hw => h w (by simp [hw])) (x + 1)

theorem fgPixels_eq_nil {m : Mask} (h : ∀ row ∈ m, ∀ v ∈ row, v = 0) :
    fgPixels m = [] := by
  unfold fgPixels
  suffices H : ∀ (mm : Mask), (∀ row ∈ mm, ∀ v ∈ row, v = 0) →
      ∀ y, fgAux y mm = [] from H m h 0
  intro mm
  induction mm with
  | nil => intro _ _; rfl
  | cons row rest ih =>
      intro hall y
      simp only [fgAux]
      rw [fgRow_eq_nil (hall row (by simp)) y 0, List.nil_append]
      exact ih (fun s hs v hv => hall s (by simp [hs]) v hv) (y + 1)

theorem findContoursM_eq_nil {m : Mask} (h : fgPixels m = []) :
    findContoursM m = [] := by
  unfold findContoursM
  rw [h]
  rfl

theorem selectBest_eq_none {cs : List (List Pt)}
    (h : ∀ c ∈ cs, contourAreaQ c = 0) : selectBest cs = none := by
  suffices H : cs.foldl
      (fun acc c => if contourAreaQ c > acc.2 then (some c, contourAreaQ c) else acc)
      ((none : Option (List Pt)), (0 : ℚ)) = (none, 0) by
    unfold selectBest
    rw [H]
  induction cs with
  | nil => rfl
  | cons c cs ih =>
      rw [List.foldl_cons]
      rw [show (if contourAreaQ c > ((none : Option (List Pt)), (0 : ℚ)).2
          then (some c, contourAreaQ c) else ((none : Option (List Pt)), (0 : ℚ)))
          = ((none : Option (List Pt)), (0 : ℚ)) by
        rw [h c (by simp)]
        simp]
      exact ih fun d hd => h d (by simp [hd])

/-- C1: whenever the thresholded mask of the updated motion history is all
zero, `cv2.findContours` finds nothing, no contour is selected, and
`MHB.compute` takes the failure branch that models the exception raised by
`cv2.moments(None)` — it does not produce a numeric result.  (The Python
code crashes here with an untyped exception rather than raising the typed
NoMotionDetected condition the specification requires.) -/
theorem compute_empty_mask_fails (alpha p : ℚ) (clip : Nat) (mhi hmag mhi' : FieldQ)
    (hup : MHI.update alpha id mhi (crop2 clip hmag) = some mhi')
    (hz : ∀ row ∈ maskOf p mhi', ∀ v ∈ row, v = 0) :
    MHB.compute alpha clip p mhi hmag = Except.error VErr.momentsNone := by
  simp only [MHB.compute, hup]
  rw [findContoursM_eq_nil (fgPixels_eq_nil hz)]
  rfl

/-- Witness for C1: identical frames give a zero horizontal-magnitude field;
with a zero motion-history state the smoothed field is all zero, the mask is
empty, and `compute` fails on the moments of a missing contour. -/
theorem compute_empty_mask_fails_witness :
    MHB.compute 1 1 80 (zerosF 3 3) (zerosF 5 5) = Except.error VErr.momentsNone := by
  exact compute_empty_mask_fails 1 80 1 (zerosF 3 3) (zerosF 5 5) (zerosF 3 3)
    (by decide) (by decide)

/-- C10: the strict `area > best_area` comparison against the initial
`best_area = 0` can never select a contour of zero area, so a mask whose
foreground regions all have zero contour area (single pixels, 1-pixel-wide
lines) leaves `contour = None` and `MHB.compute` fails exactly as in the
empty-mask case, although the mask is non-empty. -/
theorem compute_zero_area_regions_fail (alpha p : ℚ) (clip : Nat)
    (mhi hmag mhi' : FieldQ)
    (hup : MHI.update alpha id mhi (crop2 clip hmag) = some mhi')
    (hzero : ∀ c ∈ findContoursM (maskOf p mhi'), contourAreaQ c = 0)
    (_hne : ∃ row ∈ maskOf p mhi', ∃ v ∈ row, v ≠ 0) :
    MHB.compute alpha clip p mhi hmag = Except.error VErr.momentsNone := by
  simp only [MHB.compute, hup]
  rw [selectBest_eq_none hzero]

/-- Witness for C10: a mask holding exactly one foreground pixel — its only
contour is the single point `(1, 1)` of area `0`, and `compute` fails like
the empty-mask case even though the mask is non-empty. -/
theorem compute_zero_area_regions_fail_witness :
    MHB.compute 1 1 50 (zerosF 3 3)
        [[0, 0, 0, 0, 0], [0, 0, 0, 0, 0], [0, 0, 10, 0, 0],
         [0, 0, 0, 0, 0], [0, 0, 0, 0, 0]]
      = Except.error VErr.momentsNone := by
  exact compute_zero_area_regions_fail 1 50 1 (zerosF 3 3)
    [[0, 0, 0, 0, 0], [0, 0, 0, 0, 0], [0, 0, 10, 0, 0],
     [0, 0, 0, 0, 0], [0, 0, 0, 0, 0]]
    [[0, 0, 0], [0, 10, 0], [0, 0, 0]]
    (by decide) (by decide) (by decide)

/-! ## C9: `edge_clip = 0` empties the crop and dooms `compute` -/

theorem crop2_zero_eq_nil (f : FieldQ) : crop2 0 f = [] := by
  simp [crop2, pyCrop]

theorem update_nil_frame {alpha : ℚ} {cast : ℚ → ℚ} {mhi st' : FieldQ}
    (hu : MHI.update alpha cast mhi [] = some st') : st' = [] := by
  unfold MHI.update at hu
  rcases h1 : shapeOfL mhi with _ | ⟨r1, c1⟩
  · simp only [h1] at hu
    exact Option.noConfusion hu
  · have h2 : shapeOfL ([] : FieldQ) = some (0, 0) := rfl
    simp only [h1, h2] at hu
    rcases hbr : bcastLen r1 0 with _ | R
    · simp only [hbr] at hu
      exact Option.noConfusion hu
    · have hR : R = 0 := by
        unfold bcastLen at hbr
        split at hbr
        · rw [Option.some.injEq] at hbr
          omega
        · split at hbr
          · rw [Option.some.injEq] at hbr
            omega
          · split at hbr
            · rename_i h01
              omega
            · exact Option.noConfusion hbr
      subst hR
      rcases hbc : bcastLen c1 0 with _ | C
      · simp only [hbr, hbc] at hu
        exact Option.noConfusion hu
      · simp only [hbr, hbc, Option.some.injEq, List.range_zero, List.map_nil] at hu
        exact hu.symm

/-- C9: with `edge_clip = 0` the Python slice `hmag[0:-0, 0:-0]` is the empty
array of shape `(0, 0)` — not the uncropped field — so no region can ever be
found and `MHB.compute` never returns successfully; a successful call
therefore requires `edge_clip ≥ 1`. -/
theorem compute_clip_zero_never_succeeds (alpha p : ℚ) (mhi hmag : FieldQ) :
    crop2 0 hmag = [] ∧
    shapeOfL (crop2 0 hmag) = some (0, 0) ∧
    exceptOk (MHB.compute alpha 0 p mhi hmag) = false := by
  refine ⟨crop2_zero_eq_nil hmag, by rw [crop2_zero_eq_nil hmag]; rfl, ?_⟩
  simp only [MHB.compute, crop2_zero_eq_nil hmag]
  rcases hu : MHI.update alpha id mhi [] with _ | st'
  · rfl
  · have hnil := update_nil_frame hu
    subst hnil
    rfl

/-! ## C7: rectangle centroids from contour moments -/

theorem ratTrunc_intCast (n : ℤ) : ratTrunc (n : ℚ) = n := by
  unfold ratTrunc
  rw [Rat.num_intCast, Rat.den_intCast]
  exact Int.tdiv_one n

theorem momentsQ_rectContour (x0 y0 x1 y1 : ℤ) (hx : x0 < x1) (hy : y0 < y1) :
    momentsQ (rectContour x0 y0 x1 y1)
      = ⟨(((x1 - x0) * (y1 - y0) : ℤ) : ℚ),
         (((x1 - x0) * (y1 - y0) : ℤ) : ℚ) * (((x0 : ℚ) + (x1 : ℚ)) / 2),
         (((x1 - x0) * (y1 - y0) : ℤ) : ℚ) * (((y0 : ℚ) + (y1 : ℚ)) / 2)⟩ := by
  have hpos : (0 : ℤ) < (x1 - x0) * (y1 - y0) := mul_pos (by omega) (by omega)
  have ha00 : crossSum (rectContour x0 y0 x1 y1) = -2 * ((x1 - x0) * (y1 - y0)) := by
    simp [crossSum, cyclePairs, rectContour]
    ring
  simp only [momentsQ, ha00]
  rw [if_neg (by omega : ¬ (-2 * ((x1 - x0) * (y1 - y0)) = 0))]
  rw [if_neg (by omega : ¬ ((0 : ℤ) < -2 * ((x1 - x0) * (y1 - y0))))]
  simp only [cyclePairs, rectContour, List.drop, List.zip, List.zipWith, List.map,
    List.sum_cons, List.sum_nil, MomentsQ.mk.injEq]
  refine ⟨?_, ?_, ?_⟩ <;> (push_cast; ring)

/-- C7 (amended): `MHB.compute`'s centroid step returns
`(int(m01/m00), int(m10/m00))` over the selected contour's moments; for the
contour of a filled rectangle `[x0, x1] × [y0, y1]` of pixels this is the
truncation of the true geometric centre `((y0+y1)/2, (x0+x1)/2)`, and it
equals the true centre exactly precisely when the corner sums are even —
odd pixel width and height — while even-sized rectangles lose the half. -/
theorem rect_centroid_truncated (x0 y0 x1 y1 : ℤ) (hx : x0 < x1) (hy : y0 < y1) :
    (momentsQ (rectContour x0 y0 x1 y1)).m00 = (((x1 - x0) * (y1 - y0) : ℤ) : ℚ) ∧
    centroidOfContour (rectContour x0 y0 x1 y1)
      = some (ratTrunc (((y0 : ℚ) + (y1 : ℚ)) / 2), ratTrunc (((x0 : ℚ) + (x1 : ℚ)) / 2)) ∧
    (2 ∣ y0 + y1 → (ratTrunc (((y0 : ℚ) + (y1 : ℚ)) / 2) : ℚ) = ((y0 : ℚ) + (y1 : ℚ)) / 2) ∧
    (2 ∣ x0 + x1 → (ratTrunc (((x0 : ℚ) + (x1 : ℚ)) / 2) : ℚ) = ((x0 : ℚ) + (x1 : ℚ)) / 2) := by
  have hA : ((((x1 - x0) * (y1 - y0) : ℤ) : ℚ)) ≠ 0 := by
    have hpos : (0 : ℤ) < (x1 - x0) * (y1 - y0) := mul_pos (by omega) (by omega)
    exact_mod_cast hpos.ne'
  have hm := momentsQ_rectContour x0 y0 x1 y1 hx hy
  refine ⟨by rw [hm], ?_, ?_, ?_⟩
  · unfold centroidOfContour
    rw [hm]
    simp only
    rw [if_neg hA, mul_div_cancel_left₀ _ hA, mul_div_cancel_left₀ _ hA]
  · rintro ⟨k, hk⟩
    have : ((y0 : ℚ) + (y1 : ℚ)) / 2 = (k : ℚ) := by
      have : ((y0 : ℚ) + (y1 : ℚ)) = ((2 * k : ℤ) : ℚ) := by
        rw [← hk]
        push_cast
        ring
      rw [this]
      push_cast
      ring
    rw [this, ratTrunc_intCast]
  · rintro ⟨k, hk⟩
    have : ((x0 : ℚ) + (x1 : ℚ)) / 2 = (k : ℚ) := by
      have : ((x0 : ℚ) + (x1 : ℚ)) = ((2 * k : ℤ) : ℚ) := by
        rw [← hk]
        push_cast
        ring
      rw [this]
      push_cast
      ring
    rw [this, ratTrunc_intCast]

/-- Witness for the amended C7 at a concrete rectangle `[0, 2] × [0, 2]`
(odd pixel width and height: centre integral, returned exactly). -/
theorem rect_centroid_truncated_witness :
    (momentsQ (rectContour 0 0 2 2)).m00 = (((2 - 0) * (2 - 0) : ℤ) : ℚ) ∧
    centroidOfContour (rectContour 0 0 2 2)
      = some (ratTrunc (((0 : ℚ) + (2 : ℚ)) / 2), ratTrunc (((0 : ℚ) + (2 : ℚ)) / 2)) ∧
    (2 ∣ (0 : ℤ) + 2 → (ratTrunc (((0 : ℚ) + (2 : ℚ)) / 2) : ℚ) = ((0 : ℚ) + (2 : ℚ)) / 2) ∧
    (2 ∣ (0 : ℤ) + 2 → (ratTrunc (((0 : ℚ) + (2 : ℚ)) / 2) : ℚ) = ((0 : ℚ) + (2 : ℚ)) / 2) := by
  exact rect_centroid_truncated 0 0 2 2 (by decide) (by decide)

/-- Counterexample to C7 as stated: a full `compute` run whose mask is the
filled 2-pixel-wide, 3-pixel-tall rectangle `cols 0..1 × rows 0..2`.  The
true geometric centre has column `(0 + 1)/2 = 1/2`, but the returned
integer location is `(1, 0)`: `int()` truncation loses the half, so the
computed centroid does not equal the rectangle's true centre exactly. -/
theorem rect_centroid_counterexample :
    MHB.compute 1 1 30 (zerosF 3 3)
        [[0, 0, 0, 0, 0], [0, 10, 10, 0, 0], [0, 10, 10, 0, 0],
         [0, 10, 10, 0, 0], [0, 0, 0, 0, 0]]
      = Except.ok ((10, (1, 0)), [[10, 10, 0], [10, 10, 0], [10, 10, 0]]) ∧
    ¬ (((0 : ℚ)) = ((0 : ℚ) + (1 : ℚ)) / 2) := by
  exact ⟨by rfl, by decide⟩

/-! ## C8: the percentile mask -/

theorem getM_maskOf {p : ℚ} {f : FieldQ} {i j r c : Nat}
    (hs : shapeOfL f = some (r, c)) (hi : i < r) (hj : j < c) :
    getM (maskOf p f) i j
      = if percentileQ p f.flatten < get2 f i j then 1 else 0 := by
  have hif : i < f.length := by rw [shapeOfL_length hs]; exact hi
  have hjf : j < f[i].length := by rw [shapeOfL_row hs (List.getElem_mem hif)]; exact hj
  have h1 : (maskOf p f).getD i []
      = f[i].map fun v => if percentileQ p f.flatten < v then 1 else 0 := by
    unfold maskOf
    rw [List.getD_eq_getElem _ _ (by simpa using hif)]
    simp
  unfold getM
  rw [h1, List.getD_eq_getElem _ _ (by simpa using hjf)]
  simp only [List.getElem_map]
  rw [get2_eq_getElem hif hjf]

/-- C8: a mask cell is `1` exactly when the smoothed value strictly exceeds
the percentile threshold recomputed from the current smoothed field, and on
the synthetic `2 × 5` field with the ten distinct values `1..10` the
percentile-80 mask holds exactly `2 = N·(100−p)/100` foreground cells. -/
theorem mask_percentile_threshold (p : ℚ) (f : FieldQ) (i j r c : Nat)
    (hs : shapeOfL f = some (r, c)) (hi : i < r) (hj : j < c) :
    getM (maskOf p f) i j
      = (if percentileQ p f.flatten < get2 f i j then 1 else 0) ∧
    (fgPixels (maskOf 80 [[1, 2, 3, 4, 5], [6, 7, 8, 9, 10]])).length = 2 ∧
    ((fgPixels (maskOf 80 [[1, 2, 3, 4, 5], [6, 7, 8, 9, 10]])).length : ℚ)
      = 10 * (100 - 80) / 100 := by
  exact ⟨getM_maskOf hs hi hj, by decide, by decide⟩

/-- Witness for C8 at a concrete cell of the synthetic field (value `1`,
below the percentile-80 threshold `8.2`, so the mask holds `0` there). -/
theorem mask_percentile_threshold_witness :
    getM (maskOf 80 [[1, 2, 3, 4, 5], [6, 7, 8, 9, 10]]) 0 0
      = (if percentileQ 80 ([[1, 2, 3, 4, 5], [6, 7, 8, 9, 10]] : FieldQ).flatten
            < get2 [[1, 2, 3, 4, 5], [6, 7, 8, 9, 10]] 0 0 then 1 else 0) ∧
    (fgPixels (maskOf 80 [[1, 2, 3, 4, 5], [6, 7, 8, 9, 10]])).length = 2 ∧
    ((fgPixels (maskOf 80 [[1, 2, 3, 4, 5], [6, 7, 8, 9, 10]])).length : ℚ)
      = 10 * (100 - 80) / 100 := by
  exact mask_percentile_threshold 80 [[1, 2, 3, 4, 5], [6, 7, 8, 9, 10]] 0 0 2 5
    (by decide) (by decide) (by decide)

/-! ## C6: the horizontal projection formula of line 112 -/

/-- C6: `hmag = mag * cos(ang) ** 2` at every pixel: a purely vertical flow
vector (`ang = π/2`) contributes exactly `0`, and a purely horizontal one
(`ang = 0`) contributes its full magnitude. -/
theorem hmag_projection (mag ang : Nat → Nat → ℝ) (i j : Nat) :
    (ang i j = Real.pi / 2 → hmagField mag ang i j = 0) ∧
    (ang i j = 0 → hmagField mag ang i j = mag i j) := by
  constructor
  · intro h
    unfold hmagField hmagPixel
    rw [h, Real.cos_pi_div_two]
    ring
  · intro h
    unfold hmagField hmagPixel
    rw [h, Real.cos_zero]
    ring

/-- Witness for C6: magnitude `5` under vertical flow yields `0`, under
horizontal flow yields `5`. -/
theorem hmag_projection_witness :
    hmagField (fun _ _ => (5 : ℝ)) (fun _ _ => Real.pi / 2) 0 0 = 0 ∧
    hmagField (fun _ _ => (5 : ℝ)) (fun _ _ => 0) 0 0 = 5 := by
  exact ⟨(hmag_projection (fun _ _ => (5 : ℝ)) (fun _ _ => Real.pi / 2) 0 0).1 rfl,
         (hmag_projection (fun _ _ => (5 : ℝ)) (fun _ _ => 0) 0 0).2 rfl⟩
